import Mathlib

/-
  Verification development for the value-binding core of the konfig
  configuration store (src/value.go).

  The Go code walks bound values with reflection.  The embedding below
  replaces reflection by an explicit universe of value shapes `Val`:
  each constructor corresponds to one of the reflect kinds the source
  discriminates on (int and string scalars, a TextUnmarshaler-capable
  type, nested structs, string-keyed maps of strings / ints / structs /
  pointers-to-structs, and single-level pointers to structs).  A struct
  is a list of fields carrying the reflect data the code reads: the
  field name (`StructField.Name`), the raw `konfig` tag (`Tag.Get`,
  so "" means no tag), exportedness (`CanSet`), and the field value.
  Go maps are represented by canonical key-sorted association lists,
  matching the source's own `sorted` key iteration; `copier.Copy`
  clones become the identity in this functional model.
-/

namespace Konfig

/-- Raw dynamic inputs (`interface{}` values handed to `set`/`setValues`). -/
inductive Raw where
  | rStr (s : String)
  | rInt (n : Int)
  | rBool (b : Bool)
  | rNil
deriving DecidableEq, Repr

/-- Model of `strings.ToLower` (ASCII folding suffices for the keys used here). -/
def lowerStr (s : String) : String := ⟨s.data.map Char.toLower⟩

/-- Model of `strings.EqualFold` for the ASCII identifiers involved. -/
def eqFold (a b : String) : Bool := lowerStr a == lowerStr b

/-- Model of `strings.HasPrefix s p`. -/
def hasPref (s p : String) : Bool := p.data.isPrefixOf s.data

/-- Model of the Go slice `s[len(p):]` used to strip a matched key parts. -/
def dropPref (s p : String) : String := ⟨s.data.drop p.data.length⟩

/-- KeySep constant from the source. -/
def keySep : String := "."

def parseDigitsAux : List Char → Nat → Option Nat
  | [], acc => some acc
  | c :: rest, acc =>
    if c.isDigit then parseDigitsAux rest (acc * 10 + (c.toNat - 48)) else none

/-- Model of `strconv.ParseInt` as used by `cast.ToInt` on strings: an
optional sign followed by a nonempty digit run; anything else yields `none`
(Go's base-0 parse also accepts hex/octal prefixes and underscores, which
none of the inputs here use). -/
def parseGoInt (s : String) : Option Int :=
  match s.data with
  | [] => none
  | '+' :: rest =>
    if rest = [] then none else (parseDigitsAux rest 0).map Int.ofNat
  | '-' :: rest =>
    if rest = [] then none else (parseDigitsAux rest 0).map (fun n => -(Int.ofNat n))
  | l => (parseDigitsAux l 0).map Int.ofNat

/-- Model of `cast.ToString` on the raw inputs above. -/
def toStringGo : Raw → String
  | .rStr s => s
  | .rInt n => toString n
  | .rBool b => if b then "true" else "false"
  | .rNil => ""

/-- Model of `cast.ToInt`: returns the zero value on unparseable input. -/
def toIntGo : Raw → Int
  | .rStr s => (parseGoInt s).getD 0
  | .rInt n => n
  | .rBool b => if b then 1 else 0
  | .rNil => 0

/-- Model of `cast.ToStringMapString`: none of the raw inputs modelled here
is a JSON object or a map, so on every such input it returns the empty map
(errors are discarded by the non-E variant). -/
def toStringMapGo : Raw → List (String × String) := fun _ => []

mutual
/-- Bound-value shapes, mirroring the reflect kinds discriminated in
`setStruct` and `getStructKeys`. -/
inductive Val where
  | vInt (n : Int)
  | vString (s : String)
  | vCodec (st : Option String)
  | vStruct (fs : List FieldV)
  | vMapString (m : List (String × String))
  | vMapInt (m : List (String × Int))
  | vMapStruct (z : List FieldV) (m : List (String × List FieldV))
  | vMapPtrStruct (z : List FieldV) (m : List (String × List FieldV))
  | vPtrStruct (z : List FieldV) (p : Option (List FieldV))

/-- One struct field: reflect name, raw `konfig` tag, exportedness, value.
For `vMapStruct`/`vMapPtrStruct`/`vPtrStruct` the `z` component records the
element/pointee struct shape used by `reflect.New` (zero allocation). -/
inductive FieldV where
  | mk (name : String) (tag : String) (canSet : Bool) (v : Val)
end

def FieldV.name : FieldV → String
  | .mk n _ _ _ => n

def FieldV.tag : FieldV → String
  | .mk _ t _ _ => t

def FieldV.canSet : FieldV → Bool
  | .mk _ _ c _ => c

def FieldV.val : FieldV → Val
  | .mk _ _ _ w => w

mutual
/-- Size measure on values, used for termination of the field walk. -/
def sizeV : Val → Nat
  | .vInt _ => 1
  | .vString _ => 1
  | .vCodec _ => 1
  | .vStruct fs => 1 + sizeFs fs
  | .vMapString _ => 1
  | .vMapInt _ => 1
  | .vMapStruct z m => 1 + sizeFs z + sizeEnt m
  | .vMapPtrStruct z m => 1 + sizeFs z + sizeEnt m
  | .vPtrStruct z p => 1 + sizeFs z + (match p with | some q => sizeFs q | none => 0)

def sizeF : FieldV → Nat
  | .mk _ _ _ w => 1 + sizeV w

def sizeFs : List FieldV → Nat
  | [] => 1
  | f :: r => 1 + sizeF f + sizeFs r

def sizeEnt : List (String × List FieldV) → Nat
  | [] => 1
  | (_, fs) :: r => 1 + sizeFs fs + sizeEnt r
end

mutual
/-- Model of `reflect.Zero` on a value's shape. -/
def zeroV : Val → Val
  | .vInt _ => .vInt 0
  | .vString _ => .vString ""
  | .vCodec _ => .vCodec none
  | .vStruct fs => .vStruct (zeroFs fs)
  | .vMapString _ => .vMapString []
  | .vMapInt _ => .vMapInt []
  | .vMapStruct z _ => .vMapStruct z []
  | .vMapPtrStruct z _ => .vMapPtrStruct z []
  | .vPtrStruct z _ => .vPtrStruct z none

def zeroF : FieldV → FieldV
  | .mk n t c w => .mk n t c (zeroV w)

def zeroFs : List FieldV → List FieldV
  | [] => []
  | f :: r => zeroF f :: zeroFs r
end

/-- Go map write `m[k] = v` on the canonical sorted association-list
representation of a Go map (replace an existing key, else insert in order). -/
def assocPut {α : Type} : List (String × α) → String → α → List (String × α)
  | [], k, v => [(k, v)]
  | (k', v') :: rest, k, v =>
    if k = k' then (k, v) :: rest
    else if k < k' then (k, v) :: (k', v') :: rest
    else (k', v') :: assocPut rest k v

/-- Go map read `m[k]` (`reflect.Value.MapIndex`). -/
def assocGet {α : Type} : List (String × α) → String → Option α
  | [], _ => none
  | (k', v') :: rest, k => if k' = k then some v' else assocGet rest k

def splitDotAux : List Char → Option (List Char × List Char)
  | [] => none
  | c :: rest =>
    if c = '.' then some ([], rest)
    else (splitDotAux rest).map (fun pr => (c :: pr.1, pr.2))

/-- Model of `strings.SplitN(s, ".", 2)` restricted to the case the code
uses: `some (a, b)` when `s = a ++ "." ++ b` with `a` dot-free, else `none`
(the `len(keyElt) == 2` test fails). -/
def splitDot (s : String) : Option (String × String) :=
  (splitDotAux s.data).map (fun pr => (⟨pr.1⟩, ⟨pr.2⟩))

/-- The diagnostic emitted at the end of a `setStruct` walk that touched
nothing. -/
def notFoundMsg (k : String) : String :=
  "Config key " ++ k ++ " not found in bound value"

/-- Result of one `setStruct` walk: the returned `set` flag, the updated
field list, and the debug messages emitted (in order). -/
structure SRes where
  touched : Bool
  out : List FieldV
  log : List String

/-- Model of `unmarshalText`/`unmarshal`: only the `vCodec` shape implements
`encoding.TextUnmarshaler` (the source tries the value then its address; the
two cases collapse here).  `none` = type does not implement (returns false);
`some none` = `UnmarshalText` failed, i.e. `panic(err)`; `some (some w)` =
successful decode.  `dec` is the codec's `UnmarshalText` on the stringified
input. -/
def unmarshal (dec : String → Option String) (f : Val) (v : Raw) : Option (Option Val) :=
  match f with
  | .vCodec _ => some ((dec (toStringGo v)).map (fun r => Val.vCodec (some r)))
  | _ => none

/-- Outcome of `castValue`: either a value of the field's own kind produced
by one of the enumerated cast cases, or the default passthrough of the raw
input. -/
inductive CastOut where
  | out (w : Val)
  | through (v : Raw)

/-- Model of `castValue` restricted to the shapes in `Val`: int, string and
map[string]string fields hit their cast cases; every other shape here falls
through to the default `return v`. -/
def castValue (f : Val) (v : Raw) : CastOut :=
  match f with
  | .vInt _ => .out (.vInt (toIntGo v))
  | .vString _ => .out (.vString (toStringGo v))
  | .vMapString _ => .out (.vMapString (toStringMapGo v))
  | _ => .through v

/-- The exact-match assignment body (source lines 246-253): try `unmarshal`
(panic propagates), else `castValue`; a nil passthrough zeroes the field
(`field.CanAddr()` holds for these struct fields), a non-nil passthrough of
a raw input never matches the remaining field shapes, so `reflect.Set`
panics (`none`). -/
def assignVal (dec : String → Option String) (f : Val) (v : Raw) : Option Val :=
  match unmarshal dec f v with
  | some r => r
  | none =>
    match castValue f v with
    | .out w => some w
    | .through r => if r = .rNil then some (zeroV f) else none

theorem assocGet_sizeFs_lt {m : List (String × List FieldV)} {k : String}
    {fs : List FieldV} (h : assocGet m k = some fs) : sizeFs fs < sizeEnt m := by
  induction m with
  | nil => simp [assocGet] at h
  | cons p rest ih =>
    obtain ⟨k', v'⟩ := p
    simp only [assocGet] at h
    by_cases hk : k' = k
    · rw [if_pos hk] at h
      injection h with h
      subst h
      simp only [sizeEnt]
      omega
    · rw [if_neg hk] at h
      have := ih h
      simp only [sizeEnt]
      omega

theorem assocGetD_sizeFs_le (m : List (String × List FieldV)) (k : String)
    (z : List FieldV) : sizeFs ((assocGet m k).getD z) ≤ sizeFs z + sizeEnt m := by
  cases h : assocGet m k with
  | none =>
    simp only [Option.getD_none]
    omega
  | some fs =>
    have := assocGet_sizeFs_lt h
    simp only [Option.getD_some]
    omega

/-- The per-field body of the `setStruct` loop (source lines 231-384), with
the recursive `setStruct` calls abstracted as `recur`: an exact tag match or
case-folded name match assigns through `assignVal`; otherwise a prefix (or
embed) match recurses according to the field's shape.  Returns this field's
touch contribution, the updated field, and the debug messages emitted while
handling it; `none` models a panic. -/
def setFieldGo (dec : String → Option String)
    (recur : String → Raw → List FieldV → Option SRes)
    (k : String) (v : Raw) (f : FieldV) : Option (Bool × FieldV × List String) :=
  match f with
  | .mk name tag0 cs w =>
    let tag := if tag0 = "" ∧ name = "" then ",embed" else tag0
    if tag = k ∨ eqFold name k then
      if cs then
        match assignVal dec w v with
        | none => none
        | some w' => some (true, .mk name tag0 cs w', [])
      else some (true, .mk name tag0 cs w, [])
    else if tag = ",embed" ∨ hasPref k (tag ++ keySep) ∨
        hasPref (lowerStr k) (lowerStr name ++ keySep) then
      let nK := if tag = ",embed" then k
        else if hasPref k (tag ++ keySep) then dropPref k (tag ++ keySep)
        else dropPref k (name ++ keySep)
      match w with
      | .vMapString m =>
        match v with
        | .rStr s => some (true, .mk name tag0 cs (.vMapString (assocPut m nK s)), [])
        | _ => none
      | .vMapStruct z m =>
        match splitDot nK with
        | none => some (false, .mk name tag0 cs (.vMapStruct z m), [])
        | some (mk1, rest) =>
          match recur rest v ((assocGet m mk1).getD z) with
          | none => none
          | some r =>
            if r.touched then
              some (true, .mk name tag0 cs (.vMapStruct z (assocPut m mk1 r.out)), r.log)
            else some (false, .mk name tag0 cs (.vMapStruct z m), r.log)
      | .vMapPtrStruct z m =>
        match splitDot nK with
        | none => some (false, .mk name tag0 cs (.vMapPtrStruct z m), [])
        | some (mk1, rest) =>
          match recur rest v ((assocGet m mk1).getD z) with
          | none => none
          | some r =>
            if r.touched then
              some (true, .mk name tag0 cs (.vMapPtrStruct z (assocPut m mk1 r.out)), r.log)
            else some (false, .mk name tag0 cs (.vMapPtrStruct z m), r.log)
      | .vStruct inner =>
        if cs then
          match recur nK v inner with
          | none => none
          | some r =>
            if r.touched then some (true, .mk name tag0 cs (.vStruct r.out), r.log)
            else some (false, .mk name tag0 cs (.vStruct inner), r.log)
        else some (false, .mk name tag0 cs (.vStruct inner), [])
      | .vPtrStruct z p =>
        if cs then
          match recur nK v (p.getD z) with
          | none => none
          | some r =>
            if r.touched then some (true, .mk name tag0 cs (.vPtrStruct z (some r.out)), r.log)
            else some (false, .mk name tag0 cs (.vPtrStruct z p), r.log)
        else some (false, .mk name tag0 cs (.vPtrStruct z p), [])
      | _ => some (false, .mk name tag0 cs w, [])
    else some (false, .mk name tag0 cs w, [])

/-- The field loop of `setStruct`: fields are processed in declaration
order, touch flags OR-ed, logs concatenated in emission order. -/
def setFieldsGo (step : FieldV → Option (Bool × FieldV × List String)) :
    List FieldV → Option (Bool × List FieldV × List String)
  | [] => some (false, [], [])
  | f :: rest =>
    match step f with
    | none => none
    | some (b1, f', l1) =>
      match setFieldsGo step rest with
      | none => none
      | some (b2, rest', l2) => some (b1 || b2, f' :: rest', l1 ++ l2)

/-- Fuel-indexed form of `value.setStruct`: one unit of fuel per nesting
level.  Structural recursion on the fuel keeps the function computable by
the kernel; `setStruct` below saturates the fuel so that the out-of-fuel
branch is never reached. -/
def setStructF (dec : String → Option String) :
    Nat → String → Raw → List FieldV → Option SRes
  | 0, _, _, _ => none
  | fuel + 1, k, v, fs =>
    match setFieldsGo (setFieldGo dec (setStructF dec fuel) k v) fs with
    | none => none
    | some (b, fs', lg) => some ⟨b, fs', if b then lg else lg ++ [notFoundMsg k]⟩

/-- Model of `value.setStruct` (source lines 222-396): the field walk plus
the final not-found diagnostic. -/
def setStruct (dec : String → Option String) (k : String) (v : Raw)
    (fs : List FieldV) : Option SRes :=
  setStructF dec (sizeFs fs) k v fs

/-- A bound value: the OpenMap variant (`map[string]interface{}`) or the
Record variant (a struct).  The variant and shape are fixed at bind time. -/
inductive Bound where
  | bMap (m : List (String × Raw))
  | bStruct (fs : List FieldV)

/-- Model of `value.set` (source lines 154-185).  The map branch rebuilds
the map from its sorted keys and writes `k`; on the canonical sorted
association-list representation this is exactly `assocPut`.  The struct
branch clones the snapshot (`copier.Copy`, the identity here), runs
`setStruct` (whose boolean result is discarded), and always publishes the
clone.  `none` models a panic escaping the update. -/
def set (dec : String → Option String) (k : String) (v : Raw) (b : Bound) :
    Option (Bound × List String) :=
  match b with
  | .bMap m => some (.bMap (assocPut m k v), [])
  | .bStruct fs =>
    match setStruct dec k v fs with
    | none => none
    | some r => some (.bStruct r.out, r.log)

/-- Insertion step of the sort modelling `sorted` (sort.Strings over the
batch keys). -/
def insPair (p : String × Raw) : List (String × Raw) → List (String × Raw)
  | [] => [p]
  | q :: rest => if p.1 ≤ q.1 then p :: q :: rest else q :: insPair p rest

/-- Sort the batch by key, modelling the `sorted` iteration in `setValues`. -/
def sortPairs (l : List (String × Raw)) : List (String × Raw) :=
  l.foldr insPair []

/-- Apply the batch keys one by one to the working struct value, threading
the accumulated log; the per-key boolean result is discarded exactly as in
the source. -/
def applyAll (dec : String → Option String) :
    List (String × Raw) → List FieldV → List String →
    Option (List FieldV × List String)
  | [], fs, lg => some (fs, lg)
  | (kk, vv) :: rest, fs, lg =>
    match setStruct dec kk vv fs with
    | none => none
    | some r => applyAll dec rest r.out (lg ++ r.log)

/-- Model of `value.setValues` (source lines 187-220).  The map branch
copies the old entries and then writes each batch key in sorted order.  The
struct branch allocates `reflect.New(t)` — a fresh ZERO value of the bound
type, with no `copier.Copy` from the current snapshot — applies all batch
keys to it in sorted key order, and publishes it once. -/
def setValues (dec : String → Option String) (x : List (String × Raw))
    (b : Bound) : Option (Bound × List String) :=
  match b with
  | .bMap m =>
    some (.bMap ((sortPairs x).foldl (fun acc p => assocPut acc p.1 p.2) m), [])
  | .bStruct fs =>
    match applyAll dec (sortPairs x) (zeroFs fs) [] with
    | none => none
    | some (out, lg) => some (.bStruct out, lg)

/-- One level of `getStructKeys` (source lines 115-152) with the recursive
call abstracted: fields in declaration order; a `-` tag prunes the field and
its descendants; an empty tag falls back to the lower-cased field name (or
the `,embed` sentinel if the name were empty, which never happens to a Go
struct field); a struct-kinded field contributes its recursive keys computed
with a child prefix built from its tag alone — the `var prefix string` on
source line 135 shadows the incoming accumulated prefix, which is used only
for the leaves of the current level; every other field contributes
`pre ++ tag` as one leaf key. -/
def getKeysGo (recur : List FieldV → String → List String) :
    List FieldV → String → List String
  | [], _ => []
  | .mk name tag0 _ w :: rest, pre =>
    if tag0 = "-" then getKeysGo recur rest pre
    else
      let tag := if tag0 = "" then (if name = "" then ",embed" else lowerStr name) else tag0
      match w with
      | .vStruct inner =>
        let childPre := if tag = ",embed" then "" else tag ++ keySep
        recur inner childPre ++ getKeysGo recur rest pre
      | _ => (pre ++ tag) :: getKeysGo recur rest pre

/-- Fuel-indexed `getStructKeys`; one unit of fuel per struct nesting
level. -/
def getStructKeysF : Nat → List FieldV → String → List String
  | 0, _, _ => []
  | fuel + 1, fs, pre => getKeysGo (getStructKeysF fuel) fs pre

/-- Model of `getStructKeys` (source lines 115-152), fuel saturated. -/
def getStructKeys (fs : List FieldV) (pre : String) : List String :=
  getStructKeysF (sizeFs fs) fs pre

/-- The alias `setStruct` computes for a field before matching (the `tag`
local of source lines 234-239). -/
def fieldTag (f : FieldV) : String :=
  if f.tag = "" ∧ f.name = "" then ",embed" else f.tag

/-- A field that a key `k` neither exact-matches nor prefix-matches: the
walk leaves such a field completely alone. -/
def Untouchable (k : String) (f : FieldV) : Prop :=
  ¬(fieldTag f = k ∨ eqFold f.name k = true) ∧
  ¬(fieldTag f = ",embed" ∨ hasPref k (fieldTag f ++ keySep) = true ∨
    hasPref (lowerStr k) (lowerStr f.name ++ keySep) = true)

instance (k : String) (f : FieldV) : Decidable (Untouchable k f) := by
  unfold Untouchable
  infer_instance

/-- A codec that rejects every input; used to instantiate concrete runs on
records that contain no codec-capable field. -/
def dec0 : String → Option String := fun _ => none

theorem sizeFs_pos (fs : List FieldV) : 1 ≤ sizeFs fs := by
  cases fs <;> simp only [sizeFs] <;> omega

theorem sizeF_lt_of_mem {f : FieldV} {fs : List FieldV} (h : f ∈ fs) :
    sizeF f < sizeFs fs := by
  induction fs with
  | nil => simp at h
  | cons g rest ih =>
    rcases List.mem_cons.mp h with h' | h'
    · subst h'
      simp only [sizeFs]
      have := sizeFs_pos rest
      omega
    · have := ih h'
      simp only [sizeFs]
      omega

theorem setFieldGo_congr (dec : String → Option String)
    (r1 r2 : String → Raw → List FieldV → Option SRes)
    (k : String) (v : Raw) (f : FieldV)
    (h : ∀ k' v' fs', sizeFs fs' < sizeF f → r1 k' v' fs' = r2 k' v' fs') :
    setFieldGo dec r1 k v f = setFieldGo dec r2 k v f := by
  obtain ⟨name, tag0, cs, w⟩ := f
  simp only [setFieldGo]
  generalize (if tag0 = "" ∧ name = "" then ",embed" else tag0) = tagv
  by_cases h1 : tagv = k ∨ eqFold name k = true
  · rw [if_pos h1, if_pos h1]
  · rw [if_neg h1, if_neg h1]
    by_cases h2 : tagv = ",embed" ∨ hasPref k (tagv ++ keySep) = true ∨
        hasPref (lowerStr k) (lowerStr name ++ keySep) = true
    · rw [if_pos h2, if_pos h2]
      generalize (if tagv = ",embed" then k
        else if hasPref k (tagv ++ keySep) = true then dropPref k (tagv ++ keySep)
        else dropPref k (name ++ keySep)) = nK
      cases w with
      | vStruct inner =>
        dsimp only
        rw [h nK v inner (by simp only [sizeF, sizeV]; omega)]
      | vMapStruct z m =>
        dsimp only
        cases hsp : splitDot nK with
        | none => rfl
        | some pr =>
          obtain ⟨mk1, rest⟩ := pr
          dsimp only
          rw [h rest v ((assocGet m mk1).getD z)
            (by have := assocGetD_sizeFs_le m mk1 z; simp only [sizeF, sizeV]; omega)]
      | vMapPtrStruct z m =>
        dsimp only
        cases hsp : splitDot nK with
        | none => rfl
        | some pr =>
          obtain ⟨mk1, rest⟩ := pr
          dsimp only
          rw [h rest v ((assocGet m mk1).getD z)
            (by have := assocGetD_sizeFs_le m mk1 z; simp only [sizeF, sizeV]; omega)]
      | vPtrStruct z p =>
        have hsz : sizeFs (p.getD z) < sizeF (.mk name tag0 cs (.vPtrStruct z p)) := by
          cases p with
          | none => simp only [Option.getD_none, sizeF, sizeV]; omega
          | some q => simp only [Option.getD_some, sizeF, sizeV]; omega
        dsimp only
        rw [h nK v (p.getD z) hsz]
      | vInt n => rfl
      | vString s => rfl
      | vCodec st => rfl
      | vMapString m => rfl
      | vMapInt m => rfl
    · rw [if_neg h2, if_neg h2]

theorem setFieldsGo_congr {s1 s2 : FieldV → Option (Bool × FieldV × List String)}
    {fs : List FieldV} (h : ∀ f ∈ fs, s1 f = s2 f) :
    setFieldsGo s1 fs = setFieldsGo s2 fs := by
  induction fs with
  | nil => rfl
  | cons f rest ih =>
    simp only [setFieldsGo]
    rw [h f (by simp), ih (fun g hg => h g (by simp [hg]))]

theorem setStructF_congr (dec : String → Option String) :
    ∀ sz n m k v fs, sizeFs fs ≤ sz → sizeFs fs ≤ n → sizeFs fs ≤ m →
      setStructF dec n k v fs = setStructF dec m k v fs := by
  intro sz
  induction sz with
  | zero =>
    intro n m k v fs hsz hn hm
    have := sizeFs_pos fs
    omega
  | succ sz ih =>
    intro n m k v fs hsz hn hm
    have hpos := sizeFs_pos fs
    obtain ⟨n', rfl⟩ : ∃ n', n = n' + 1 := ⟨n - 1, by omega⟩
    obtain ⟨m', rfl⟩ : ∃ m', m = m' + 1 := ⟨m - 1, by omega⟩
    simp only [setStructF]
    have hloop : setFieldsGo (setFieldGo dec (setStructF dec n') k v) fs =
        setFieldsGo (setFieldGo dec (setStructF dec m') k v) fs := by
      apply setFieldsGo_congr
      intro f hf
      apply setFieldGo_congr
      intro k' v' fs' hlt
      have hmem := sizeF_lt_of_mem hf
      exact ih n' m' k' v' fs' (by omega) (by omega) (by omega)
    rw [hloop]

theorem setStructF_eq_setStruct (dec : String → Option String)
    {n : Nat} {fs : List FieldV} (hn : sizeFs fs ≤ n) (k : String) (v : Raw) :
    setStructF dec n k v fs = setStruct dec k v fs := by
  unfold setStruct
  exact setStructF_congr dec (sizeFs fs) n (sizeFs fs) k v fs le_rfl hn le_rfl

/-- The clean recursion equation for `setStruct`: one field loop with the
recursive occurrences being `setStruct` itself. -/
theorem setStruct_eqn (dec : String → Option String) (k : String) (v : Raw)
    (fs : List FieldV) :
    setStruct dec k v fs =
      match setFieldsGo (setFieldGo dec (setStruct dec) k v) fs with
      | none => none
      | some (b, fs', lg) => some ⟨b, fs', if b then lg else lg ++ [notFoundMsg k]⟩ := by
  have hpos := sizeFs_pos fs
  conv_lhs => unfold setStruct
  obtain ⟨m, hm⟩ : ∃ m, sizeFs fs = m + 1 := ⟨sizeFs fs - 1, by omega⟩
  rw [hm]
  simp only [setStructF]
  have hloop : setFieldsGo (setFieldGo dec (setStructF dec m) k v) fs =
      setFieldsGo (setFieldGo dec (setStruct dec) k v) fs := by
    apply setFieldsGo_congr
    intro f hf
    apply setFieldGo_congr
    intro k' v' fs' hlt
    have hmem := sizeF_lt_of_mem hf
    exact setStructF_eq_setStruct dec (by omega) k' v'
  rw [hloop]

theorem setFieldGo_untouchable (dec : String → Option String)
    (recur : String → Raw → List FieldV → Option SRes) {k : String} {f : FieldV}
    (v : Raw) (h : Untouchable k f) :
    setFieldGo dec recur k v f = some (false, f, []) := by
  obtain ⟨n, t, c, w⟩ := f
  obtain ⟨h1, h2⟩ := h
  simp only [fieldTag, FieldV.tag, FieldV.name] at h1 h2
  simp only [setFieldGo]
  rw [if_neg h1, if_neg h2]

theorem setFieldsGo_untouchable (dec : String → Option String)
    (recur : String → Raw → List FieldV → Option SRes) {k : String}
    {fs : List FieldV} (v : Raw) (h : ∀ f ∈ fs, Untouchable k f) :
    setFieldsGo (setFieldGo dec recur k v) fs = some (false, fs, []) := by
  induction fs with
  | nil => rfl
  | cons f rest ih =>
    simp only [setFieldsGo]
    rw [setFieldGo_untouchable dec recur v (h f (by simp)),
      ih (fun g hg => h g (by simp [hg]))]
    rfl

theorem setFieldsGo_append {step : FieldV → Option (Bool × FieldV × List String)}
    {pre : List FieldV} (rest : List FieldV)
    (h : ∀ f ∈ pre, step f = some (false, f, [])) :
    setFieldsGo step (pre ++ rest) =
      match setFieldsGo step rest with
      | none => none
      | some (b, out, lg) => some (b, pre ++ out, lg) := by
  induction pre with
  | nil =>
    simp only [List.nil_append]
    cases setFieldsGo step rest with
    | none => rfl
    | some r => obtain ⟨b, out, lg⟩ := r; rfl
  | cons f p ih =>
    simp only [List.cons_append, setFieldsGo, List.append_eq]
    rw [h f (by simp), ih (fun g hg => h g (by simp [hg]))]
    cases setFieldsGo step rest with
    | none => rfl
    | some r => obtain ⟨b, out, lg⟩ := r; rfl

/-- A `setStruct` walk over `pre ++ mid :: post` where `k` matches nothing
in `pre` and `post`: the result is governed by the single field `mid`. -/
theorem setStruct_single (dec : String → Option String) {k : String} (v : Raw)
    (pre post : List FieldV) {mid : FieldV} {b1 : Bool} {f' : FieldV}
    {l1 : List String}
    (hpre : ∀ f ∈ pre, Untouchable k f) (hpost : ∀ f ∈ post, Untouchable k f)
    (hmid : setFieldGo dec (setStruct dec) k v mid = some (b1, f', l1)) :
    setStruct dec k v (pre ++ mid :: post) =
      some ⟨b1, pre ++ f' :: post, if b1 then l1 else l1 ++ [notFoundMsg k]⟩ := by
  rw [setStruct_eqn]
  rw [setFieldsGo_append (mid :: post)
    (fun f hf => setFieldGo_untouchable dec (setStruct dec) v (hpre f hf))]
  simp only [setFieldsGo]
  rw [hmid, setFieldsGo_untouchable dec (setStruct dec) v hpost]
  simp

theorem exact_match_cond {k nm : String} (hk : k ≠ "") :
    ((if k = "" ∧ nm = "" then ",embed" else k) = k ∨ eqFold nm k = true) := by
  left
  rw [if_neg (fun hc => hk hc.1)]

/-- Exact match on an exported int field assigns the cast value. -/
theorem setFieldGo_exact_int (dec : String → Option String)
    (recur : String → Raw → List FieldV → Option SRes) {k : String}
    (v : Raw) (nm : String) (a : Int) (hk : k ≠ "") :
    setFieldGo dec recur k v (.mk nm k true (.vInt a)) =
      some (true, .mk nm k true (.vInt (toIntGo v)), []) := by
  simp only [setFieldGo]
  rw [if_pos (exact_match_cond hk), if_pos (by trivial)]
  rfl

theorem data_append (s t : String) : (s ++ t).data = s.data ++ t.data := by
  cases s
  cases t
  rfl

theorem hasPref_append (p r : String) : hasPref (p ++ r) p = true := by
  rw [hasPref, data_append]
  exact List.isPrefixOf_iff_prefix.mpr (List.prefix_append _ _)

theorem dropPref_append (p r : String) : dropPref (p ++ r) p = r := by
  rw [dropPref, data_append, List.drop_left]

theorem append_sep_ne (t r : String) : t ++ keySep ++ r ≠ t := by
  intro heq
  have hlen := congrArg (fun s => s.data.length) heq
  simp only [data_append, List.length_append] at hlen
  have : keySep.data.length = 1 := by decide
  omega

/-- Exact match on an unexported field: nothing is assigned (`CanSet` is
false) but the field still counts as touched. -/
theorem setFieldGo_exact_noset (dec : String → Option String)
    (recur : String → Raw → List FieldV → Option SRes) (k : String) (v : Raw)
    (nm t : String) (w : Val)
    (hmatch : (if t = "" ∧ nm = "" then ",embed" else t) = k ∨ eqFold nm k = true) :
    setFieldGo dec recur k v (.mk nm t false w) = some (true, .mk nm t false w, []) := by
  simp only [setFieldGo]
  rw [if_pos hmatch]
  rfl

/-- Prefix match into an exported struct field recurses with the stripped
key and commits the clone only when the recursion touched something. -/
theorem setFieldGo_pref_struct (dec : String → Option String)
    (recur : String → Raw → List FieldV → Option SRes) (v : Raw)
    {k nm t : String} (inner : List FieldV)
    (ht0 : t ≠ "") (hembed : t ≠ ",embed")
    (hexact : ¬(t = k ∨ eqFold nm k = true))
    (hpref : hasPref k (t ++ keySep) = true) :
    setFieldGo dec recur k v (.mk nm t true (.vStruct inner)) =
      match recur (dropPref k (t ++ keySep)) v inner with
      | none => none
      | some r =>
        if r.touched then some (true, .mk nm t true (.vStruct r.out), r.log)
        else some (false, .mk nm t true (.vStruct inner), r.log) := by
  simp only [setFieldGo]
  have hdite : (if t = "" ∧ nm = "" then ",embed" else t) = t :=
    if_neg (fun hc => ht0 hc.1)
  rw [hdite]
  rw [if_neg hexact, if_pos (Or.inr (Or.inl hpref))]
  rw [if_neg hembed, if_pos hpref]
  rw [if_pos (by trivial)]

/-- Prefix match into an exported `map[string]string` field stores the raw
string at the stripped key with no coercion and marks the field touched. -/
theorem setFieldGo_pref_mapString (dec : String → Option String)
    (recur : String → Raw → List FieldV → Option SRes) (s : String)
    {k nm t : String} (m : List (String × String))
    (ht0 : t ≠ "") (hembed : t ≠ ",embed")
    (hexact : ¬(t = k ∨ eqFold nm k = true))
    (hpref : hasPref k (t ++ keySep) = true) :
    setFieldGo dec recur k (.rStr s) (.mk nm t true (.vMapString m)) =
      some (true, .mk nm t true (.vMapString (assocPut m (dropPref k (t ++ keySep)) s)), []) := by
  simp only [setFieldGo]
  have hdite : (if t = "" ∧ nm = "" then ",embed" else t) = t :=
    if_neg (fun hc => ht0 hc.1)
  rw [hdite]
  rw [if_neg hexact, if_pos (Or.inr (Or.inl hpref))]
  rw [if_neg hembed, if_pos hpref]

/-- C1: for a Record-shaped bound value, `setValues` is claimed to apply the
batch to one clone of the current snapshot, preserving every field not
addressed by the batch.  The struct branch of `setValues` actually starts
from `reflect.New(t)` — a fresh zero value, with no copy of the current
snapshot — so the unaddressed field `B` is published as `0`, not as its
current value `2`. -/
theorem c1_setValues_discards_snapshot :
    setValues dec0 [("a", .rInt 5)]
      (.bStruct [.mk "A" "a" true (.vInt 1), .mk "B" "b" true (.vInt 2)]) =
      some (.bStruct [.mk "A" "a" true (.vInt 5), .mk "B" "b" true (.vInt 0)], []) ∧
    Val.vInt 0 ≠ Val.vInt 2 := ⟨rfl, by simp⟩

/-- C2 (counterexample): for the Record with fields `A` (tag "a"), anonymous
`B` (a struct field whose reflect `Name` is the type name "B", never the
empty string) and `D` (tag "-"), the key "c" claimed to be registered is not
in the enumeration: the dead `Name == ""` check never fires, so `B` gets
alias "b" and contributes "b.c". -/
theorem c2_counterexample :
    ¬ ("c" ∈ getStructKeys
      [.mk "A" "a" true (.vInt 0),
       .mk "B" "" true (.vStruct [.mk "C" "" true (.vInt 0)]),
       .mk "D" "-" true (.vInt 0)] "") := by decide

/-- C2 (amended): the same Record enumerates exactly `["a", "b.c"]` — the
untagged anonymous field behaves like a named field aliased by its
lower-cased name, and the `-` tag still prunes `D`; the no-prefix embed
behavior would require an explicit `,embed` tag. -/
theorem c2_amended_enumeration :
    getStructKeys
      [.mk "A" "a" true (.vInt 0),
       .mk "B" "" true (.vStruct [.mk "C" "" true (.vInt 0)]),
       .mk "D" "-" true (.vInt 0)] "" = ["a", "b.c"] := rfl

/-- C3: for a Record nested three deep (root field tagged "b", child tagged
"c", leaf tagged "d"), the claimed full path "b.c.d" is not enumerated: the
`var prefix string` on source line 135 shadows the accumulated prefix, so
the enumeration yields only "c.d", dropping the root alias. -/
theorem c3_depth3_enumeration_drops_root :
    getStructKeys
      [.mk "B" "b" true (.vStruct
        [.mk "C" "c" true (.vStruct [.mk "D" "d" true (.vInt 0)])])] ""
      = ["c.d"] ∧ ¬ ("b.c.d" ∈ (["c.d"] : List String)) := ⟨rfl, by decide⟩

/-- C4 (counterexample): with two fields both tagged "a", a single
`set("a", 5)` assigns BOTH fields — the exact match `continue`s the loop
rather than short-circuiting, so the second field does not keep its old
value 0. -/
theorem c4_counterexample :
    setStruct dec0 "a" (.rInt 5)
      [.mk "F1" "a" true (.vInt 0), .mk "F2" "a" true (.vInt 0)] =
      some ⟨true, [.mk "F1" "a" true (.vInt 5), .mk "F2" "a" true (.vInt 5)], []⟩ ∧
    Val.vInt 5 ≠ Val.vInt 0 := ⟨rfl, by simp⟩

/-- C4 (amended): every field whose alias exactly matches the key is
assigned, in declaration order; an exact match does not short-circuit the
scan for later fields. -/
theorem c4_all_exact_matches_assigned (dec : String → Option String)
    (k : String) (v : Raw) (nmA nmB : String) (a b : Int) (hk : k ≠ "") :
    setStruct dec k v [.mk nmA k true (.vInt a), .mk nmB k true (.vInt b)] =
      some ⟨true, [.mk nmA k true (.vInt (toIntGo v)),
        .mk nmB k true (.vInt (toIntGo v))], []⟩ := by
  rw [setStruct_eqn]
  simp only [setFieldsGo]
  rw [setFieldGo_exact_int dec _ v nmA a hk, setFieldGo_exact_int dec _ v nmB b hk]
  rfl

theorem c4_witness :
    setStruct dec0 "a" (.rStr "7") [.mk "F1" "a" true (.vInt 1), .mk "F2" "a" true (.vInt 2)] =
      some ⟨true, [.mk "F1" "a" true (.vInt 7), .mk "F2" "a" true (.vInt 7)], []⟩ := by
  have h := c4_all_exact_matches_assigned dec0 "a" (.rStr "7") "F1" "F2" 1 2 (by decide)
  simpa using h

/-- C5: a `set` on an int-typed leaf whose input has no representable int
value stores 0 into that field, reports it touched, emits no diagnostic,
raises no error, and leaves every other (non-matching) field unchanged. -/
theorem c5_malformed_int_zeroes (dec : String → Option String)
    (pre post : List FieldV) (nm k s : String) (n : Int)
    (hpre : ∀ f ∈ pre, Untouchable k f) (hpost : ∀ f ∈ post, Untouchable k f)
    (hk : k ≠ "") (hs : parseGoInt s = none) :
    setStruct dec k (.rStr s) (pre ++ .mk nm k true (.vInt n) :: post) =
      some ⟨true, pre ++ .mk nm k true (.vInt 0) :: post, []⟩ ∧
    set dec k (.rStr s) (.bStruct (pre ++ .mk nm k true (.vInt n) :: post)) =
      some (.bStruct (pre ++ .mk nm k true (.vInt 0) :: post), []) := by
  have hmid := setFieldGo_exact_int dec (setStruct dec) (Raw.rStr s) nm n hk
  rw [show toIntGo (Raw.rStr s) = 0 from by simp [toIntGo, hs]] at hmid
  have hss := setStruct_single dec (Raw.rStr s) pre post hpre hpost hmid
  refine ⟨by simpa using hss, ?_⟩
  simp only [set]
  rw [hss]
  rfl

theorem c5_witness :
    setStruct dec0 "count" (.rStr "not-a-number")
      ([.mk "X" "x" true (.vInt 9)] ++ .mk "Count" "count" true (.vInt 7) :: []) =
      some ⟨true, [.mk "X" "x" true (.vInt 9)] ++ .mk "Count" "count" true (.vInt 0) :: [], []⟩ :=
  (c5_malformed_int_zeroes dec0 [.mk "X" "x" true (.vInt 9)] [] "Count" "count"
    "not-a-number" 7 (by decide) (by decide) (by decide) (by rfl)).1

/-- C7 (counterexample): `set("b.x", ...)` on a Record whose field `B`
prefix-matches but whose subtree has no field `x` emits TWO diagnostics —
the nested walk logs "Config key x not found ..." with the remainder key,
then the outer walk logs the original key — not exactly one message with
the original key. -/
theorem c7_counterexample :
    set dec0 "b.x" (.rStr "z")
      (.bStruct [.mk "B" "b" true (.vStruct [.mk "C" "c" true (.vInt 0)])]) =
      some (.bStruct [.mk "B" "b" true (.vStruct [.mk "C" "c" true (.vInt 0)])],
        [notFoundMsg "x", notFoundMsg "b.x"]) ∧
    [notFoundMsg "x", notFoundMsg "b.x"].length ≠ 1 := ⟨rfl, by decide⟩

/-- C7 (amended): a `set` whose key matches no field at all — no exact
match and no prefix match anywhere in the Record — emits exactly one debug
message naming the original key, publishes the value unchanged, and raises
no error; when a prefix-matched subtree fails to touch, each failed nested
walk additionally emits one message naming its remainder key. -/
theorem c7_no_match_single_diagnostic (dec : String → Option String)
    (k : String) (v : Raw) (fs : List FieldV)
    (h : ∀ f ∈ fs, Untouchable k f) :
    set dec k v (.bStruct fs) = some (.bStruct fs, [notFoundMsg k]) := by
  have h1 : setStruct dec k v fs = some ⟨false, fs, [notFoundMsg k]⟩ := by
    rw [setStruct_eqn]
    rw [setFieldsGo_untouchable dec (setStruct dec) v h]
    rfl
  simp only [set]
  rw [h1]

theorem c7_witness :
    set dec0 "nope" (.rStr "z")
      (.bStruct [.mk "A" "a" true (.vInt 1), .mk "B" "b" true (.vString "s")]) =
      some (.bStruct [.mk "A" "a" true (.vInt 1), .mk "B" "b" true (.vString "s")],
        [notFoundMsg "nope"]) :=
  c7_no_match_single_diagnostic dec0 "nope" (.rStr "z") _ (by decide)

/-- C8 (counterexample): a prefix-matched `set` into a `map[string]int`
field stores nothing: integer map elements hit the `default: continue`
case, the field stays untouched (the map is not written) and the walk
reports not-found — contradicting the claim that any scalar-element map is
written directly. -/
theorem c8_counterexample :
    setStruct dec0 "m.x" (.rInt 5) [.mk "M" "m" true (.vMapInt [])] =
      some ⟨false, [.mk "M" "m" true (.vMapInt [])], [notFoundMsg "m.x"]⟩ ∧
    Val.vMapInt [] ≠ Val.vMapInt [("x", (5 : Int))] := ⟨rfl, by simp⟩

/-- C8 (amended): for a string-keyed map field with STRING elements, a
prefix-matched `set` with remainder `nK` stores the raw string at `map[nK]`
as-is (no coercion, creating the map if absent) and marks the field
touched; maps with other scalar element types (e.g. int) are skipped. -/
theorem c8_map_string_direct_store (dec : String → Option String)
    (nm t nK s : String) (m : List (String × String))
    (ht0 : t ≠ "") (hembed : t ≠ ",embed")
    (hexact : ¬ eqFold nm (t ++ keySep ++ nK) = true) :
    setStruct dec (t ++ keySep ++ nK) (.rStr s) [.mk nm t true (.vMapString m)] =
      some ⟨true, [.mk nm t true (.vMapString (assocPut m nK s))], []⟩ := by
  have hex : ¬(t = t ++ keySep ++ nK ∨ eqFold nm (t ++ keySep ++ nK) = true) := by
    rintro (hc | hc)
    · exact append_sep_ne t nK hc.symm
    · exact hexact hc
  have hmid := setFieldGo_pref_mapString dec (setStruct dec) s m ht0 hembed hex
    (hasPref_append (t ++ keySep) nK)
  rw [dropPref_append] at hmid
  have hss := setStruct_single dec (Raw.rStr s) [] [] (by simp) (by simp) hmid
  simpa using hss

theorem c8_witness :
    setStruct dec0 ("m" ++ keySep ++ "x") (.rStr "hello")
      [.mk "M" "m" true (.vMapString [])] =
      some ⟨true, [.mk "M" "m" true (.vMapString [("x", "hello")])], []⟩ := by
  have h := c8_map_string_direct_store dec0 "M" "m" "x" "hello" []
    (by decide) (by decide) (by decide)
  simpa using h

/-- C10: a key that exactly matches an unexported (non-settable) field is
still reported touched: the walk publishes the snapshot with that field
unchanged, emits no not-found diagnostic, and the enclosing recursion
commits the (unchanged) clone back into its parent. -/
theorem c10_unexported_exact_match_touches (dec : String → Option String)
    (v : Raw) (oname otag iname ik : String) (w : Val)
    (h1 : otag ≠ "") (h2 : otag ≠ ",embed")
    (h3 : ¬ eqFold oname (otag ++ keySep ++ ik) = true)
    (h4 : ¬(ik = "" ∧ iname = "")) :
    setStruct dec (otag ++ keySep ++ ik) v
      [.mk oname otag true (.vStruct [.mk iname ik false w])] =
      some ⟨true, [.mk oname otag true (.vStruct [.mk iname ik false w])], []⟩ ∧
    set dec (otag ++ keySep ++ ik) v
      (.bStruct [.mk oname otag true (.vStruct [.mk iname ik false w])]) =
      some (.bStruct [.mk oname otag true (.vStruct [.mk iname ik false w])], []) := by
  have hinnerMid := setFieldGo_exact_noset dec (setStruct dec) ik v iname ik w
    (Or.inl (if_neg h4))
  have hinner : setStruct dec ik v [.mk iname ik false w] =
      some ⟨true, [.mk iname ik false w], []⟩ := by
    have := setStruct_single dec v [] [] (by simp) (by simp) hinnerMid
    simpa using this
  have hex : ¬(otag = otag ++ keySep ++ ik ∨ eqFold oname (otag ++ keySep ++ ik) = true) := by
    rintro (hc | hc)
    · exact append_sep_ne otag ik hc.symm
    · exact h3 hc
  have houter := setFieldGo_pref_struct dec (setStruct dec) v
    [FieldV.mk iname ik false w] h1 h2 hex (hasPref_append (otag ++ keySep) ik)
  rw [dropPref_append, hinner] at houter
  have houter' : setFieldGo dec (setStruct dec) (otag ++ keySep ++ ik) v
      (.mk oname otag true (.vStruct [.mk iname ik false w])) =
      some (true, .mk oname otag true (.vStruct [.mk iname ik false w]), []) := by
    rw [houter]
    rfl
  have hss' : setStruct dec (otag ++ keySep ++ ik) v
      [.mk oname otag true (.vStruct [.mk iname ik false w])] =
      some ⟨true, [.mk oname otag true (.vStruct [.mk iname ik false w])], []⟩ := by
    have := setStruct_single dec v [] [] (by simp) (by simp) houter'
    simpa using this
  refine ⟨hss', ?_⟩
  simp only [set]
  rw [hss']

theorem c10_witness :
    set dec0 ("s" ++ keySep ++ "u") (.rInt 3)
      (.bStruct [.mk "S" "s" true (.vStruct [.mk "u" "u" false (.vInt 4)])]) =
      some (.bStruct [.mk "S" "s" true (.vStruct [.mk "u" "u" false (.vInt 4)])], []) :=
  (c10_unexported_exact_match_touches dec0 (.rInt 3) "S" "s" "u" "u" (.vInt 4)
    (by decide) (by decide) (by decide) (by decide)).2

/-- C6: a field whose type exposes the text-decoding capability panics the
whole update when the decoder rejects the stringified input (the error
propagates out of `set` — modelled as `none`), whereas the generic coercion
path on an int field never raises: every input yields a published
snapshot. -/
theorem c6_codec_failure_fatal_coercion_not (dec : String → Option String)
    (k nm nmI : String) (st : Option String) (n : Int) (v : Raw)
    (hk : k ≠ "") (hdec : dec (toStringGo v) = none) :
    set dec k v (.bStruct [.mk nm k true (.vCodec st)]) = none ∧
    ∀ v' : Raw, set dec k v' (.bStruct [.mk nmI k true (.vInt n)]) =
      some (.bStruct [.mk nmI k true (.vInt (toIntGo v'))], []) := by
  constructor
  · have hmid : setFieldGo dec (setStruct dec) k v (.mk nm k true (.vCodec st)) = none := by
      simp only [setFieldGo]
      rw [if_pos (exact_match_cond hk), if_pos (by trivial)]
      simp only [assignVal, unmarshal, hdec]
      rfl
    have hstruct : setStruct dec k v [.mk nm k true (.vCodec st)] = none := by
      rw [setStruct_eqn]
      simp only [setFieldsGo]
      rw [hmid]
    simp only [set]
    rw [hstruct]
  · intro v'
    have hmid := setFieldGo_exact_int dec (setStruct dec) v' nmI n hk
    have hss := setStruct_single dec v' [] [] (by simp) (by simp) hmid
    have hss' : setStruct dec k v' [.mk nmI k true (.vInt n)] =
        some ⟨true, [.mk nmI k true (.vInt (toIntGo v'))], []⟩ := by
      simpa using hss
    simp only [set]
    rw [hss']

theorem c6_witness :
    set dec0 "k" (.rStr "bad") (.bStruct [.mk "F" "k" true (.vCodec none)]) = none ∧
    set dec0 "k" (.rInt 7) (.bStruct [.mk "G" "k" true (.vInt 3)]) =
      some (.bStruct [.mk "G" "k" true (.vInt 7)], []) := by
  have h := c6_codec_failure_fatal_coercion_not dec0 "k" "F" "G" none 3 (.rStr "bad")
    (by decide) (by rfl)
  refine ⟨h.1, ?_⟩
  have h2 := h.2 (.rInt 7)
  simpa using h2

theorem sizeV_pos (w : Val) : 1 ≤ sizeV w := by
  cases w with
  | vPtrStruct z p => cases p <;> simp only [sizeV] <;> omega
  | vInt n => simp only [sizeV]; omega
  | vString s => simp only [sizeV]; omega
  | vCodec st => simp only [sizeV]; omega
  | vStruct fs => simp only [sizeV]; omega
  | vMapString m => simp only [sizeV]; omega
  | vMapInt m => simp only [sizeV]; omega
  | vMapStruct z m => simp only [sizeV]; omega
  | vMapPtrStruct z m => simp only [sizeV]; omega

theorem zero_idem_aux : ∀ sz : Nat,
    (∀ w, sizeV w ≤ sz → zeroV (zeroV w) = zeroV w) ∧
    (∀ fs, sizeFs fs ≤ sz → zeroFs (zeroFs fs) = zeroFs fs) := by
  intro sz
  induction sz with
  | zero =>
    constructor
    · intro w hw
      have := sizeV_pos w
      omega
    · intro fs hfs
      have := sizeFs_pos fs
      omega
  | succ sz ih =>
    constructor
    · intro w hw
      cases w with
      | vStruct fs =>
        simp only [zeroV]
        rw [ih.2 fs (by simp only [sizeV] at hw; omega)]
      | vInt n => rfl
      | vString s => rfl
      | vCodec st => rfl
      | vMapString m => rfl
      | vMapInt m => rfl
      | vMapStruct z m => rfl
      | vMapPtrStruct z m => rfl
      | vPtrStruct z p => rfl
    · intro fs hfs
      cases fs with
      | nil => rfl
      | cons f rest =>
        obtain ⟨n, t, c, w⟩ := f
        simp only [zeroFs, zeroF]
        rw [ih.1 w (by simp only [sizeFs, sizeF] at hfs; omega),
          ih.2 rest (by simp only [sizeFs] at hfs; omega)]

theorem zeroFs_idem (fs : List FieldV) : zeroFs (zeroFs fs) = zeroFs fs :=
  (zero_idem_aux (sizeFs fs)).2 fs le_rfl

theorem assocPut_idem {α : Type} (m : List (String × α)) (k : String) (v : α) :
    assocPut (assocPut m k v) k v = assocPut m k v := by
  induction m with
  | nil => simp [assocPut]
  | cons p rest ih =>
    obtain ⟨k', v'⟩ := p
    by_cases he : k = k'
    · simp [assocPut, he]
    · by_cases hlt : k < k'
      · simp [assocPut, he, hlt]
      · simp [assocPut, he, hlt, ih]

theorem assocGet_put {α : Type} (m : List (String × α)) (k : String) (x : α) :
    assocGet (assocPut m k x) k = some x := by
  induction m with
  | nil => simp [assocPut, assocGet]
  | cons p rest ih =>
    obtain ⟨k', v'⟩ := p
    by_cases he : k = k'
    · simp [assocPut, he, assocGet]
    · by_cases hlt : k < k'
      · simp [assocPut, he, hlt, assocGet]
      · have hne : ¬(k' = k) := fun hq => he hq.symm
        simp [assocPut, he, hlt, assocGet, hne, ih]

/-- Re-assigning the same raw input to an already-assigned field value is a
no-op: the assignment result depends only on the input and the field's
shape. -/
theorem assignVal_idem (dec : String → Option String) {w w' : Val} {v : Raw}
    (h : assignVal dec w v = some w') : assignVal dec w' v = some w' := by
  cases w with
  | vInt n =>
    simp only [assignVal, unmarshal, castValue] at h
    injection h with h
    subst h
    rfl
  | vString s =>
    simp only [assignVal, unmarshal, castValue] at h
    injection h with h
    subst h
    rfl
  | vMapString m =>
    simp only [assignVal, unmarshal, castValue] at h
    injection h with h
    subst h
    rfl
  | vCodec st =>
    simp only [assignVal, unmarshal] at h
    cases hdec : dec (toStringGo v) with
    | none => rw [hdec] at h; simp at h
    | some r =>
      rw [hdec] at h
      simp only [Option.map_some'] at h
      injection h with h
      subst h
      simp only [assignVal, unmarshal, hdec, Option.map_some']
  | vStruct fs =>
    simp only [assignVal, unmarshal, castValue] at h
    by_cases hv : v = Raw.rNil
    · rw [if_pos hv] at h
      injection h with h
      subst h
      subst hv
      simp only [assignVal, unmarshal, castValue, if_pos, zeroV]
      rw [zeroFs_idem]
    · rw [if_neg hv] at h
      cases h
  | vMapInt m =>
    simp only [assignVal, unmarshal, castValue] at h
    by_cases hv : v = Raw.rNil
    · rw [if_pos hv] at h
      injection h with h
      subst h
      subst hv
      rfl
    · rw [if_neg hv] at h
      cases h
  | vMapStruct z m =>
    simp only [assignVal, unmarshal, castValue] at h
    by_cases hv : v = Raw.rNil
    · rw [if_pos hv] at h
      injection h with h
      subst h
      subst hv
      rfl
    · rw [if_neg hv] at h
      cases h
  | vMapPtrStruct z m =>
    simp only [assignVal, unmarshal, castValue] at h
    by_cases hv : v = Raw.rNil
    · rw [if_pos hv] at h
      injection h with h
      subst h
      subst hv
      rfl
    · rw [if_neg hv] at h
      cases h
  | vPtrStruct z p =>
    simp only [assignVal, unmarshal, castValue] at h
    by_cases hv : v = Raw.rNil
    · rw [if_pos hv] at h
      injection h with h
      subst h
      subst hv
      rfl
    · rw [if_neg hv] at h
      cases h

/-- Per-field idempotence: re-running the walk body on its own output
reproduces the same touch flag, output field and log, provided the
recursive calls it makes are themselves idempotent in this sense. -/
theorem setFieldGo_idem (dec : String → Option String)
    (recur : String → Raw → List FieldV → Option SRes) {k : String} {v : Raw}
    {f : FieldV} {b : Bool} {f' : FieldV} {l : List String}
    (hrec : ∀ k' v' fs' r', sizeFs fs' < sizeF f → recur k' v' fs' = some r' →
      recur k' v' r'.out = some r')
    (h : setFieldGo dec recur k v f = some (b, f', l)) :
    setFieldGo dec recur k v f' = some (b, f', l) := by
  obtain ⟨nm, t, c, w⟩ := f
  have h0 := h
  simp only [setFieldGo] at h
  generalize hTag : (if t = "" ∧ nm = "" then ",embed" else t) = tagv at h
  by_cases h1 : tagv = k ∨ eqFold nm k = true
  · rw [if_pos h1] at h
    by_cases hc : c = true
    · rw [if_pos hc] at h
      cases ha : assignVal dec w v with
      | none =>
        rw [ha] at h
        simp at h
      | some w' =>
        rw [ha] at h
        simp only [Option.some.injEq, Prod.mk.injEq] at h
        obtain ⟨hb, hf, hl⟩ := h
        subst hb
        subst hf
        subst hl
        simp only [setFieldGo]
        rw [hTag, if_pos h1, if_pos hc, assignVal_idem dec ha]
    · rw [if_neg hc] at h
      simp only [Option.some.injEq, Prod.mk.injEq] at h
      obtain ⟨hb, hf, hl⟩ := h
      subst hb
      subst hf
      subst hl
      exact h0
  · rw [if_neg h1] at h
    by_cases h2 : tagv = ",embed" ∨ hasPref k (tagv ++ keySep) = true ∨
        hasPref (lowerStr k) (lowerStr nm ++ keySep) = true
    · rw [if_pos h2] at h
      generalize hg : (if tagv = ",embed" then k
        else if hasPref k (tagv ++ keySep) = true then dropPref k (tagv ++ keySep)
        else dropPref k (nm ++ keySep)) = nK at h
      cases w with
      | vInt n =>
        simp only [Option.some.injEq, Prod.mk.injEq] at h
        obtain ⟨hb, hf, hl⟩ := h
        subst hb
        subst hf
        subst hl
        exact h0
      | vString s =>
        simp only [Option.some.injEq, Prod.mk.injEq] at h
        obtain ⟨hb, hf, hl⟩ := h
        subst hb
        subst hf
        subst hl
        exact h0
      | vCodec st =>
        simp only [Option.some.injEq, Prod.mk.injEq] at h
        obtain ⟨hb, hf, hl⟩ := h
        subst hb
        subst hf
        subst hl
        exact h0
      | vMapInt m =>
        simp only [Option.some.injEq, Prod.mk.injEq] at h
        obtain ⟨hb, hf, hl⟩ := h
        subst hb
        subst hf
        subst hl
        exact h0
      | vMapString m =>
        cases v with
        | rStr s =>
          simp only [Option.some.injEq, Prod.mk.injEq] at h
          obtain ⟨hb, hf, hl⟩ := h
          subst hb
          subst hf
          subst hl
          simp only [setFieldGo]
          rw [hTag, if_neg h1, if_pos h2, hg, assocPut_idem]
        | rInt n => simp at h
        | rBool bb => simp at h
        | rNil => simp at h
      | vMapStruct z m =>
        dsimp only at h
        cases hsp : splitDot nK with
        | none =>
          rw [hsp] at h
          simp only [Option.some.injEq, Prod.mk.injEq] at h
          obtain ⟨hb, hf, hl⟩ := h
          subst hb
          subst hf
          subst hl
          exact h0
        | some pr =>
          obtain ⟨mk1, rest⟩ := pr
          rw [hsp] at h
          dsimp only at h
          cases hr : recur rest v ((assocGet m mk1).getD z) with
          | none =>
            rw [hr] at h
            simp at h
          | some r =>
            rw [hr] at h
            dsimp only at h
            by_cases ht : r.touched = true
            · rw [if_pos ht] at h
              simp only [Option.some.injEq, Prod.mk.injEq] at h
              obtain ⟨hb, hf, hl⟩ := h
              subst hb
              subst hf
              subst hl
              have hr2 := hrec rest v ((assocGet m mk1).getD z) r
                (by have := assocGetD_sizeFs_le m mk1 z; simp only [sizeF, sizeV]; omega) hr
              have harg : (assocGet (assocPut m mk1 r.out) mk1).getD z = r.out := by
                rw [assocGet_put]
                rfl
              simp only [setFieldGo]
              rw [hTag, if_neg h1, if_pos h2, hg, hsp]
              try dsimp only
              rw [harg, hr2]
              try dsimp only
              rw [if_pos ht, assocPut_idem]
            · rw [if_neg ht] at h
              simp only [Option.some.injEq, Prod.mk.injEq] at h
              obtain ⟨hb, hf, hl⟩ := h
              subst hb
              subst hf
              subst hl
              exact h0
      | vMapPtrStruct z m =>
        dsimp only at h
        cases hsp : splitDot nK with
        | none =>
          rw [hsp] at h
          simp only [Option.some.injEq, Prod.mk.injEq] at h
          obtain ⟨hb, hf, hl⟩ := h
          subst hb
          subst hf
          subst hl
          exact h0
        | some pr =>
          obtain ⟨mk1, rest⟩ := pr
          rw [hsp] at h
          dsimp only at h
          cases hr : recur rest v ((assocGet m mk1).getD z) with
          | none =>
            rw [hr] at h
            simp at h
          | some r =>
            rw [hr] at h
            dsimp only at h
            by_cases ht : r.touched = true
            · rw [if_pos ht] at h
              simp only [Option.some.injEq, Prod.mk.injEq] at h
              obtain ⟨hb, hf, hl⟩ := h
              subst hb
              subst hf
              subst hl
              have hr2 := hrec rest v ((assocGet m mk1).getD z) r
                (by have := assocGetD_sizeFs_le m mk1 z; simp only [sizeF, sizeV]; omega) hr
              have harg : (assocGet (assocPut m mk1 r.out) mk1).getD z = r.out := by
                rw [assocGet_put]
                rfl
              simp only [setFieldGo]
              rw [hTag, if_neg h1, if_pos h2, hg, hsp]
              try dsimp only
              rw [harg, hr2]
              try dsimp only
              rw [if_pos ht, assocPut_idem]
            · rw [if_neg ht] at h
              simp only [Option.some.injEq, Prod.mk.injEq] at h
              obtain ⟨hb, hf, hl⟩ := h
              subst hb
              subst hf
              subst hl
              exact h0
      | vStruct inner =>
        dsimp only at h
        by_cases hc : c = true
        · rw [if_pos hc] at h
          cases hr : recur nK v inner with
          | none =>
            rw [hr] at h
            simp at h
          | some r =>
            rw [hr] at h
            dsimp only at h
            by_cases ht : r.touched = true
            · rw [if_pos ht] at h
              simp only [Option.some.injEq, Prod.mk.injEq] at h
              obtain ⟨hb, hf, hl⟩ := h
              subst hb
              subst hf
              subst hl
              have hr2 := hrec nK v inner r (by simp only [sizeF, sizeV]; omega) hr
              simp only [setFieldGo]
              rw [hTag, if_neg h1, if_pos h2, hg]
              try dsimp only
              rw [if_pos hc, hr2]
              try dsimp only
              rw [if_pos ht]
            · rw [if_neg ht] at h
              simp only [Option.some.injEq, Prod.mk.injEq] at h
              obtain ⟨hb, hf, hl⟩ := h
              subst hb
              subst hf
              subst hl
              exact h0
        · rw [if_neg hc] at h
          simp only [Option.some.injEq, Prod.mk.injEq] at h
          obtain ⟨hb, hf, hl⟩ := h
          subst hb
          subst hf
          subst hl
          exact h0
      | vPtrStruct z p =>
        dsimp only at h
        by_cases hc : c = true
        · rw [if_pos hc] at h
          cases hr : recur nK v (p.getD z) with
          | none =>
            rw [hr] at h
            simp at h
          | some r =>
            rw [hr] at h
            dsimp only at h
            by_cases ht : r.touched = true
            · rw [if_pos ht] at h
              simp only [Option.some.injEq, Prod.mk.injEq] at h
              obtain ⟨hb, hf, hl⟩ := h
              subst hb
              subst hf
              subst hl
              have hr2 := hrec nK v (p.getD z) r
                (by cases p with
                  | none => simp only [Option.getD_none, sizeF, sizeV]; omega
                  | some q => simp only [Option.getD_some, sizeF, sizeV]; omega) hr
              simp only [setFieldGo]
              rw [hTag, if_neg h1, if_pos h2, hg]
              try dsimp only
              rw [if_pos hc]
              try dsimp only
              rw [show (some r.out).getD z = r.out from rfl, hr2]
              try dsimp only
              rw [if_pos ht]
            · rw [if_neg ht] at h
              simp only [Option.some.injEq, Prod.mk.injEq] at h
              obtain ⟨hb, hf, hl⟩ := h
              subst hb
              subst hf
              subst hl
              exact h0
        · rw [if_neg hc] at h
          simp only [Option.some.injEq, Prod.mk.injEq] at h
          obtain ⟨hb, hf, hl⟩ := h
          subst hb
          subst hf
          subst hl
          exact h0
    · rw [if_neg h2] at h
      simp only [Option.some.injEq, Prod.mk.injEq] at h
      obtain ⟨hb, hf, hl⟩ := h
      subst hb
      subst hf
      subst hl
      exact h0

theorem setFieldsGo_idem {step : FieldV → Option (Bool × FieldV × List String)} :
    ∀ (fs : List FieldV) {b : Bool} {fs' : List FieldV} {l : List String},
      (∀ f ∈ fs, ∀ b1 f1 l1, step f = some (b1, f1, l1) → step f1 = some (b1, f1, l1)) →
      setFieldsGo step fs = some (b, fs', l) → setFieldsGo step fs' = some (b, fs', l) := by
  intro fs
  induction fs with
  | nil =>
    intro b fs' l hstep h
    simp only [setFieldsGo, Option.some.injEq, Prod.mk.injEq] at h
    obtain ⟨hb, hf, hl⟩ := h
    subst hb
    subst hf
    subst hl
    rfl
  | cons f rest ih =>
    intro b fs' l hstep h
    simp only [setFieldsGo] at h
    cases h1 : step f with
    | none =>
      rw [h1] at h
      simp at h
    | some tr =>
      obtain ⟨b1, f1, l1⟩ := tr
      rw [h1] at h
      dsimp only at h
      cases h2 : setFieldsGo step rest with
      | none =>
        rw [h2] at h
        simp at h
      | some tr2 =>
        obtain ⟨b2, rest', l2⟩ := tr2
        rw [h2] at h
        dsimp only at h
        simp only [Option.some.injEq, Prod.mk.injEq] at h
        obtain ⟨hb, hf, hl⟩ := h
        subst hb
        subst hf
        subst hl
        have hs1 : step f1 = some (b1, f1, l1) := hstep f (by simp) b1 f1 l1 h1
        have hrest : setFieldsGo step rest' = some (b2, rest', l2) :=
          ih (fun g hg => hstep g (by simp [hg])) h2
        simp only [setFieldsGo]
        rw [hs1, hrest]

/-- Re-running a whole `setStruct` walk on its own published output
reproduces the identical result (touch flag, fields and log). -/
theorem setStruct_idem (dec : String → Option String) :
    ∀ (sz : Nat) (k : String) (v : Raw) (fs : List FieldV) (r : SRes),
      sizeFs fs ≤ sz → setStruct dec k v fs = some r →
      setStruct dec k v r.out = some r := by
  intro sz
  induction sz with
  | zero =>
    intro k v fs r hsz h
    have := sizeFs_pos fs
    omega
  | succ sz ih =>
    intro k v fs r hsz h
    rw [setStruct_eqn] at h
    cases hfg : setFieldsGo (setFieldGo dec (setStruct dec) k v) fs with
    | none =>
      rw [hfg] at h
      simp at h
    | some tr =>
      obtain ⟨b, fs', lg⟩ := tr
      rw [hfg] at h
      dsimp only at h
      injection h with h
      subst h
      have hfg2 : setFieldsGo (setFieldGo dec (setStruct dec) k v) fs' = some (b, fs', lg) := by
        apply setFieldsGo_idem fs _ hfg
        intro f hf b1 f1 l1 hsf
        apply setFieldGo_idem dec (setStruct dec) _ hsf
        intro k' v' fs'' r' hlt hcall
        have hb := sizeF_lt_of_mem hf
        exact ih k' v' fs'' r' (by omega) hcall
      rw [setStruct_eqn, hfg2]

/-- C9: `set` is idempotent for a fixed key and input, on both bound-value
variants: a second `set(k, x)` publishes a snapshot equal (as a value) to
the one published by the first, with the same diagnostics. -/
theorem c9_set_idempotent (dec : String → Option String) (k : String) (v : Raw)
    (b b' : Bound) (lg : List String)
    (h : set dec k v b = some (b', lg)) : set dec k v b' = some (b', lg) := by
  cases b with
  | bMap m =>
    simp only [set, Option.some.injEq, Prod.mk.injEq] at h
    obtain ⟨hb, hl⟩ := h
    subst hb
    subst hl
    simp only [set]
    rw [assocPut_idem]
  | bStruct fs =>
    simp only [set] at h
    cases hs : setStruct dec k v fs with
    | none =>
      rw [hs] at h
      simp at h
    | some r =>
      rw [hs] at h
      dsimp only at h
      simp only [Option.some.injEq, Prod.mk.injEq] at h
      obtain ⟨hb, hl⟩ := h
      subst hb
      subst hl
      have h2 := setStruct_idem dec (sizeFs fs) k v fs r le_rfl hs
      simp only [set]
      rw [h2]

theorem c9_witness :
    set dec0 "a" (.rInt 5) (.bStruct [.mk "A" "a" true (.vInt 5)]) =
      some (.bStruct [.mk "A" "a" true (.vInt 5)], []) :=
  c9_set_idempotent dec0 "a" (.rInt 5) (.bStruct [.mk "A" "a" true (.vInt 1)])
    (.bStruct [.mk "A" "a" true (.vInt 5)]) [] (by rfl)
